import Mathlib

/-!
# Verification of the LiveTranslationOnSmartGlasses stabilizer and conversation log

Shallow embedding, in Lean 4, of the parts of the
Mentra-Community/LiveTranslationOnSmartGlasses repository that the verified
properties talk about:

* `ConfidenceCalculator` (src/webview/src/types.ts / src/src/utils/confidenceHeuristics.ts):
  word splitting, word similarity, the word-stability buffer, the six
  confidence heuristics, `getConfidentPrefix` and
  `getNonShrinkingConfidentPrefix`.
* `ConversationManager` (conversation log): `addTranslation`, eviction,
  `getAllEntries`, `clear`.
* The glasses-display debouncer (`debounceAndShowTranscript` in src/src/index.ts).
* The SSE subscription handler (`translationEvents` in
  src/src/api/translations.route.ts).

Modelling conventions:

* JavaScript numbers are modelled by `ℚ` (the arithmetic the code performs on
  them — `+ - * /`, `Math.min/max`, comparisons — is exact on the rationals);
  timestamps (`Date.now()`) are modelled by `ℤ` milliseconds passed explicitly
  to the functions that read the clock.
* `Math.sqrt` (used only by `calculatePositionConsistency`) is a float
  operation with no exact rational counterpart; it is abstracted as an explicit
  function parameter `sq : ℚ → ℚ`.  Every theorem below holds for every `sq`.
* JavaScript strings are Lean `String`s; `text.split(/\s+/)`, `text.split('')`,
  `toLowerCase`, `replace(/[^\w\s]/g,'')` and `trim` are modelled character by
  character below (`\s` is modelled by `Char.isWhitespace`, `\w` by
  ASCII `[A-Za-z0-9_]`).
* Mutable class fields become explicit state records; methods that mutate
  state return the new state.
-/

namespace LiveTranslation

/-- Model of the JavaScript `\s` character class (whitespace). -/
def isJsWs (c : Char) : Bool := c.isWhitespace

/-- Model of the JavaScript `\w` character class: ASCII `[A-Za-z0-9_]`. -/
def isWordChar (c : Char) : Bool :=
  (('a' ≤ c && c ≤ 'z') || ('A' ≤ c && c ≤ 'Z') || ('0' ≤ c && c ≤ '9') || c = '_')

/-- Auxiliary splitter for `text.split(/\s+/)`: `cur` is the token read so far
(in reverse) and `lastWs` records whether the previous character belonged to a
whitespace run (so maximal runs count as one separator).  JavaScript `split`
yields an empty leading token for leading whitespace, an empty trailing token
for trailing whitespace, and `[""]` on the empty string, and so does this
function. -/
def jsSplitWsAux : List Char → List Char → Bool → List (List Char)
  | [], cur, _ => [cur.reverse]
  | c :: cs, cur, lastWs =>
    if isJsWs c then
      if lastWs then jsSplitWsAux cs cur true
      else cur.reverse :: jsSplitWsAux cs [] true
    else jsSplitWsAux cs (c :: cur) false

/-- Model of JavaScript `text.split(/\s+/)` on character lists. -/
def jsSplitWs (s : List Char) : List (List Char) := jsSplitWsAux s [] false

/-- `splitWords` (types.ts:173-180): split the transcript into words, or into
non-whitespace characters when `isHanzi` (`text.split('').filter(c => c.trim().length > 0)`). -/
def splitWords (text : String) (isHanzi : Bool) : List String :=
  if isHanzi then
    (text.toList.filter (fun c => !(isJsWs c))).map (fun c => String.mk [c])
  else
    (jsSplitWs text.toList).map String.mk

/-- Strip leading and trailing whitespace from a character list (JS `trim`). -/
def trimChars (l : List Char) : List Char :=
  ((l.dropWhile isJsWs).reverse.dropWhile isJsWs).reverse

/-- `normalizeWord` (types.ts:185-187):
`word.toLowerCase().replace(/[^\w\s]/g, '').trim()`. -/
def normalizeWord (w : String) : String :=
  String.mk (trimChars ((w.toList.map Char.toLower).filter
    (fun c => isWordChar c || isJsWs c)))

/-- Length of the common prefix of two lists (the element-by-element scans that
`wordSimilarity` and `calculatePrefixRetention` perform). -/
def commonPrefixLen {α : Type} [DecidableEq α] : List α → List α → ℕ
  | c1 :: t1, c2 :: t2 => if c1 = c2 then commonPrefixLen t1 t2 + 1 else 0
  | _, _ => 0

/-- `wordSimilarity` (types.ts:192-219): common prefix length plus common
suffix length (the suffix scan runs for at most `minLen - prefixLen` steps),
divided by the longer normalized length. -/
def wordSimilarity (w1 w2 : String) : ℚ :=
  let norm1 := (normalizeWord w1).toList
  let norm2 := (normalizeWord w2).toList
  if norm1 = norm2 then 1
  else if norm1.length = 0 ∨ norm2.length = 0 then 0
  else
    let minLen := min norm1.length norm2.length
    let prefixLen := min (commonPrefixLen norm1 norm2) minLen
    let bound := minLen - prefixLen
    let suffixLen := commonPrefixLen (norm1.reverse.take bound) (norm2.reverse.take bound)
    ((prefixLen : ℚ) + suffixLen) / max norm1.length norm2.length

/-- `WordDetail` (types.ts:45-53).  `stableCount` is a JS number (it is
multiplied by rational decay factors), positions are array indices. -/
structure WordDetail where
  word : String
  normalizedWord : String
  stableCount : ℚ
  firstSeen : ℤ
  lastSeen : ℤ
  bestPosition : ℕ
  positionHistory : List ℕ
  deriving Repr, DecidableEq

/-- One candidate step of the best-match fold (types.ts:229-246): position
penalty, position score, similarity, combined score, and the
`combinedScore > bestScore && wordScore >= 0.8` update rule. -/
def bestMatchStep (word : String) (position : ℕ) (currentWordsLen : ℕ)
    (acc : ℚ × Option WordDetail) (detail : WordDetail) : ℚ × Option WordDetail :=
  let positionPenalty : ℚ :=
    (((detail.bestPosition : ℤ) - (position : ℤ)).natAbs : ℚ) / (max currentWordsLen 1 : ℕ)
  let positionScore : ℚ := max 0 (1 - min positionPenalty (3/10))
  let wordScore := wordSimilarity word detail.word
  let combinedScore := (7/10) * wordScore + (3/10) * positionScore
  if combinedScore > acc.1 ∧ wordScore ≥ 4/5 then (combinedScore, some detail) else acc

/-- `findBestMatch` (types.ts:224-249): fold over the word-stability buffer,
starting from `bestScore = 0`, `bestMatch = null`. -/
def findBestMatch (buffer : List WordDetail) (word : String) (position : ℕ)
    (currentWords : List String) : Option WordDetail :=
  (buffer.foldl (bestMatchStep word position currentWords.length) (0, none)).2

/-- `findBestMatchReadOnly` (types.ts:550-575); its body is identical to
`findBestMatch`. -/
def findBestMatchReadOnly (buffer : List WordDetail) (word : String) (position : ℕ)
    (currentWords : List String) : Option WordDetail :=
  (buffer.foldl (bestMatchStep word position currentWords.length) (0, none)).2

/-- `calculatePositionConsistency` (types.ts:349-361).  `sq` abstracts
`Math.sqrt` (see module docstring); the variance of the position history is
rational, so the whole computation stays in `ℚ`. -/
def calculatePositionConsistency (sq : ℚ → ℚ) (positionHistory : List ℕ) : ℚ :=
  if positionHistory.length ≤ 1 then 1
  else
    let n : ℚ := positionHistory.length
    let mean : ℚ := (positionHistory.map (fun p => (p : ℚ))).sum / n
    let variance : ℚ := (positionHistory.map (fun p => ((p : ℚ) - mean) ^ 2)).sum / n
    let stdDev := sq variance
    max 0 (1 - stdDev / 2)

/-- `positionHistory.slice(-5)`: the last five entries (all of them when the
history is shorter). -/
def sliceLast5 (l : List ℕ) : List ℕ := l.drop (l.length - 5)

/-- Mutable state of a `ConfidenceCalculator` (types.ts:78-84). -/
structure CalcState where
  previousTranscript : String
  previousWords : List String
  wordStabilityBuffer : List WordDetail
  transcriptHistory : List (String × ℤ)
  lastInterimLength : ℕ
  lastShownConfidentPrefix : String
  deriving Repr, DecidableEq

/-- The freshly-constructed calculator (types.ts:78-86). -/
def initCalcState : CalcState :=
  { previousTranscript := ""
    previousWords := []
    wordStabilityBuffer := []
    transcriptHistory := []
    lastInterimLength := 0
    lastShownConfidentPrefix := "" }

/-- `resetState` (types.ts:88-95). -/
def resetState (_s : CalcState) : CalcState := initCalcState

/-- `resetInterimTracking` (types.ts:100-103). -/
def resetInterimTracking (s : CalcState) : CalcState :=
  { s with lastInterimLength := 0, lastShownConfidentPrefix := "" }

/-- `ConfidenceHeuristic` (types.ts:43). -/
inductive ConfidenceHeuristic where
  | None | WordStability | PrefixRetention | EditDistance | WordDuration
  | TrailingWordDecay | Hybrid
  deriving Repr, DecidableEq

/-- The decay pass of `calculateWordStability` (types.ts:266-273): every buffer
entry last seen more than 2000 ms ago gets
`stableCount ← max(1, stableCount · max(0.1, 1 − (age − 2000)/5000))`. -/
def decayBuffer (now : ℤ) (buffer : List WordDetail) : List WordDetail :=
  buffer.map fun detail =>
    let timeSinceLastSeen := now - detail.lastSeen
    if timeSinceLastSeen > 2000 then
      let decayFactor : ℚ := max (1/10) (1 - ((timeSinceLastSeen : ℚ) - 2000) / 5000)
      { detail with stableCount := max 1 (detail.stableCount * decayFactor) }
    else detail

/-- The per-word loop of `calculateWordStability` (types.ts:279-323): returns
the processed buffer entries (in word order) and the total stability score.
All matches are looked up in the (decayed) buffer that entered the loop. -/
def stabilityProcessWords (sq : ℚ → ℚ) (now : ℤ) (buffer : List WordDetail)
    (currentWords : List String) : ℕ → List String → List WordDetail × ℚ
  | _, [] => ([], 0)
  | i, word :: rest =>
    let (restBuf, restScore) := stabilityProcessWords sq now buffer currentWords (i + 1) rest
    match findBestMatch buffer word i currentWords with
    | some bestMatch =>
      let updatedDetail : WordDetail :=
        { word := word
          normalizedWord := normalizeWord word
          stableCount := bestMatch.stableCount + 1
          firstSeen := bestMatch.firstSeen
          lastSeen := now
          bestPosition := i
          positionHistory := sliceLast5 bestMatch.positionHistory ++ [i] }
      let stabilityFactor : ℚ := min 1 (updatedDetail.stableCount / 3)
      let positionConsistency := calculatePositionConsistency sq updatedDetail.positionHistory
      (updatedDetail :: restBuf, stabilityFactor * positionConsistency + restScore)
    | none =>
      let newDetail : WordDetail :=
        { word := word
          normalizedWord := normalizeWord word
          stableCount := 1
          firstSeen := now
          lastSeen := now
          bestPosition := i
          positionHistory := [i] }
      (newDetail :: restBuf, 1/5 + restScore)

/-- The retention test of `calculateWordStability` (types.ts:327-330):
`!wasMatched && oldDetail.stableCount > 0.5`, where `wasMatched` checks word
similarity > 0.8 against the buffer accumulated so far. -/
def keepDetail (acc : List WordDetail) (oldDetail : WordDetail) : Bool :=
  !(acc.any fun newDetail => wordSimilarity oldDetail.word newDetail.word > 4/5)
    && oldDetail.stableCount > 1/2

/-- The retention loop of `calculateWordStability` (types.ts:326-337): for
each old (decayed) entry in order, `wasMatched` reads `newWordStabilityBuffer`
as it has grown so far — the processed current words plus the absent entries
already retained earlier in this same loop — and the entry is appended when it
passes the retention test. -/
def retainDecayed : List WordDetail → List WordDetail → List WordDetail
  | acc, [] => acc
  | acc, oldDetail :: rest =>
    if keepDetail acc oldDetail then retainDecayed (acc ++ [oldDetail]) rest
    else retainDecayed acc rest

/-- `calculateWordStability` (types.ts:258-344): decay, per-word processing,
the retention loop over the decayed old entries (checked against the growing
buffer), and the average score.  Returns `(score, state with the new
buffer)`. -/
def calculateWordStability (sq : ℚ → ℚ) (now : ℤ) (currentTranscript : String)
    (isHanzi : Bool) (s : CalcState) : ℚ × CalcState :=
  let currentWords := splitWords currentTranscript isHanzi
  if currentWords.length = 0 then (0, s)
  else
    let decayed := decayBuffer now s.wordStabilityBuffer
    let (newBuf, totalStabilityScore) :=
      stabilityProcessWords sq now decayed currentWords 0 currentWords
    let finalBuf := retainDecayed newBuf decayed
    (totalStabilityScore / currentWords.length,
      { s with wordStabilityBuffer := finalBuf })

/-- `calculatePrefixRetention` (types.ts:369-397); pure, reads only
`previousTranscript` (`!this.previousTranscript` is the empty-string test). -/
def calculatePrefixRetention (currentTranscript : String) (isHanzi : Bool)
    (s : CalcState) : ℚ :=
  if s.previousTranscript = "" then 0
  else if isHanzi then
    let currChars := splitWords currentTranscript true
    let prevChars := splitWords s.previousTranscript true
    let retained := commonPrefixLen currChars prevChars
    if currChars.length > 0 then (retained : ℚ) / currChars.length else 0
  else
    let retained := commonPrefixLen currentTranscript.toList s.previousTranscript.toList
    if currentTranscript.toList.length > 0 then
      (retained : ℚ) / currentTranscript.toList.length
    else 0

/-- `levenshteinDistance` (types.ts:56-76).  The source fills the standard
dynamic-programming table `track[j][i] = min(track[j][i-1]+1, track[j-1][i]+1,
track[j-1][i-1]+indicator)` with borders `track[0][i] = i`, `track[j][0] = j`;
this recursion computes exactly that recurrence. -/
def levAux : List Char → List Char → ℕ
  | [], l2 => l2.length
  | c1 :: t1, [] => (c1 :: t1).length
  | c1 :: t1, c2 :: t2 =>
    min (min (levAux t1 (c2 :: t2) + 1) (levAux (c1 :: t1) t2 + 1))
      (levAux t1 t2 + (if c1 = c2 then 0 else 1))
termination_by l1 l2 => l1.length + l2.length

/-- `levenshteinDistance` on strings. -/
def levenshteinDistance (s1 s2 : String) : ℕ := levAux s1.toList s2.toList

/-- `calculateEditDistanceConfidence` (types.ts:405-419). -/
def calculateEditDistanceConfidence (currentTranscript : String) (isHanzi : Bool)
    (s : CalcState) : ℚ :=
  if s.previousTranscript = "" then 0
  else if isHanzi then
    let currChars := String.join (splitWords currentTranscript true)
    let prevChars := String.join (splitWords s.previousTranscript true)
    let distance := levenshteinDistance currChars prevChars
    let maxLength := max (max currChars.toList.length prevChars.toList.length) 1
    1 - (distance : ℚ) / maxLength
  else
    let distance := levenshteinDistance currentTranscript s.previousTranscript
    let maxLength := max (max currentTranscript.toList.length
      s.previousTranscript.toList.length) 1
    1 - (distance : ℚ) / maxLength

/-- The per-word loop of `calculateWordDuration` (types.ts:435-462): builds the
updated buffer in word order (matches are looked up in the old buffer). -/
def durationProcessWords (now : ℤ) (buffer : List WordDetail)
    (currentWords : List String) : ℕ → List String → List WordDetail
  | _, [] => []
  | i, word :: rest =>
    let detail : WordDetail :=
      match findBestMatch buffer word i currentWords with
      | some bestMatch =>
        { bestMatch with
          word := word
          normalizedWord := normalizeWord word
          lastSeen := now
          stableCount := bestMatch.stableCount + 1
          bestPosition := i
          positionHistory := sliceLast5 bestMatch.positionHistory ++ [i] }
      | none =>
        { word := word
          normalizedWord := normalizeWord word
          stableCount := 1
          firstSeen := now
          lastSeen := now
          bestPosition := i
          positionHistory := [i] }
    detail :: durationProcessWords now buffer currentWords (i + 1) rest

/-- `calculateWordDuration` (types.ts:427-474): the final score is
`min(1, (Σ (lastSeen − firstSeen)·stableCount / Σ stableCount) / 1000)` over
the updated buffer (0 when the total stability is 0). -/
def calculateWordDuration (now : ℤ) (currentTranscript : String) (isHanzi : Bool)
    (s : CalcState) : ℚ × CalcState :=
  let currentWords := splitWords currentTranscript isHanzi
  if currentWords.length = 0 then (0, s)
  else
    let updatedBuffer := durationProcessWords now s.wordStabilityBuffer currentWords 0 currentWords
    let averageDurationScore : ℚ :=
      (updatedBuffer.map (fun d => ((d.lastSeen - d.firstSeen : ℤ) : ℚ) * d.stableCount)).sum
    let totalStability : ℚ := (updatedBuffer.map (fun d => d.stableCount)).sum
    let score : ℚ :=
      if totalStability = 0 then 0
      else min 1 ((averageDurationScore / totalStability) / 1000)
    (score, { s with wordStabilityBuffer := updatedBuffer })

/-- `calculateTrailingWordDecay` (types.ts:482-490):
`Σ_{i<n} (i+1)/n` divided by `n`. -/
def calculateTrailingWordDecay (currentTranscript : String) (isHanzi : Bool) : ℚ :=
  let words := splitWords currentTranscript isHanzi
  if words.length = 0 then 0
  else
    let score : ℚ := ((List.range words.length).map
      (fun index => ((index : ℚ) + 1) / words.length)).sum
    score / words.length

/-- `calculateHybridScore` (types.ts:498-511): weighted combination, clamped to
`[0, 1]`; only the word-stability sub-call updates the buffer. -/
def calculateHybridScore (sq : ℚ → ℚ) (now : ℤ) (currentTranscript : String)
    (isHanzi : Bool) (s : CalcState) : ℚ × CalcState :=
  let (wordStabilityScore, s1) := calculateWordStability sq now currentTranscript isHanzi s
  let prefixRetentionScore := calculatePrefixRetention currentTranscript isHanzi s1
  let editDistanceScore := calculateEditDistanceConfidence currentTranscript isHanzi s1
  let positionFromEndWeight := calculateTrailingWordDecay currentTranscript isHanzi
  let finalScore := (4/10) * wordStabilityScore + (3/10) * prefixRetentionScore
    + (2/10) * editDistanceScore + (1/10) * positionFromEndWeight
  (max 0 (min 1 finalScore), s1)

/-- `calculateConfidence` (types.ts:131-168): `None` returns `null` at once;
otherwise the transcript history is pushed (capped at 20), the selected
heuristic runs, and `previousTranscript` / `previousWords` are updated. -/
def calculateConfidence (sq : ℚ → ℚ) (now : ℤ) (currentTranscript : String)
    (isHanzi : Bool) (heuristic : ConfidenceHeuristic) (s : CalcState) :
    Option ℚ × CalcState :=
  match heuristic with
  | .None => (none, s)
  | _ =>
    let pushed := s.transcriptHistory ++ [(currentTranscript, now)]
    let history := if pushed.length > 20 then pushed.tail else pushed
    let s0 := { s with transcriptHistory := history }
    let (score, s1) : ℚ × CalcState :=
      match heuristic with
      | .WordStability => calculateWordStability sq now currentTranscript isHanzi s0
      | .PrefixRetention => (calculatePrefixRetention currentTranscript isHanzi s0, s0)
      | .EditDistance => (calculateEditDistanceConfidence currentTranscript isHanzi s0, s0)
      | .WordDuration => calculateWordDuration now currentTranscript isHanzi s0
      | .TrailingWordDecay => (calculateTrailingWordDecay currentTranscript isHanzi, s0)
      | _ => calculateHybridScore sq now currentTranscript isHanzi s0
    (some score,
      { s1 with
        previousTranscript := currentTranscript
        previousWords := splitWords currentTranscript isHanzi })

/-- The per-token confidence computed inside the `getConfidentPrefix` loop
(types.ts:528-535): `0.2` for a token with no buffer match, otherwise
`min(1, stableCount/3) · positionConsistency` of the match. -/
def tokenConfidence (sq : ℚ → ℚ) (buffer : List WordDetail)
    (currentWords : List String) (index : ℕ) (word : String) : ℚ :=
  match findBestMatchReadOnly buffer word index currentWords with
  | none => 1/5
  | some bestMatch =>
    min 1 (bestMatch.stableCount / 3) * calculatePositionConsistency sq bestMatch.positionHistory

/-- The scan of `getConfidentPrefix` (types.ts:525-542): include tokens left to
right while their confidence meets the threshold, stop at the first failure. -/
def confidentScan (sq : ℚ → ℚ) (buffer : List WordDetail)
    (currentWords : List String) (threshold : ℚ) : ℕ → List String → List String
  | _, [] => []
  | index, word :: rest =>
    if tokenConfidence sq buffer currentWords index word ≥ threshold then
      word :: confidentScan sq buffer currentWords threshold (index + 1) rest
    else []

/-- Join the confident tokens (types.ts:544): no separator for Hanzi, a single
space otherwise. -/
def joinWords (isHanzi : Bool) (words : List String) : String :=
  if isHanzi then String.join words else String.intercalate " " words

/-- `getConfidentPrefix` (types.ts:522-545).  The `heuristic` parameter exists
in the source signature but is not used by the body. -/
def getConfidentPrefix (sq : ℚ → ℚ) (s : CalcState) (currentTranscript : String)
    (threshold : ℚ) (isHanzi : Bool) (_heuristic : ConfidenceHeuristic) : String :=
  let currentWords := splitWords currentTranscript isHanzi
  joinWords isHanzi (confidentScan sq s.wordStabilityBuffer currentWords threshold 0 currentWords)

/-- `getNonShrinkingConfidentPrefix` (types.ts:580-595): compare token counts
with the remembered prefix; update and return the new prefix only when it is
at least as long, otherwise return the remembered one unchanged. -/
def getNonShrinkingConfidentPrefix (sq : ℚ → ℚ) (s : CalcState)
    (currentTranscript : String) (threshold : ℚ) (isHanzi : Bool)
    (heuristic : ConfidenceHeuristic) : String × CalcState :=
  let newConfidentPrefix := getConfidentPrefix sq s currentTranscript threshold isHanzi heuristic
  let newPrefixLength := (splitWords newConfidentPrefix isHanzi).length
  let lastPrefixLength := (splitWords s.lastShownConfidentPrefix isHanzi).length
  if newPrefixLength ≥ lastPrefixLength then
    (newConfidentPrefix, { s with lastShownConfidentPrefix := newConfidentPrefix })
  else
    (s.lastShownConfidentPrefix, s)

attribute [local semireducible] Rat.mul Rat.add Rat.sub Rat.inv

/-- A sequence of `getNonShrinkingConfidentPrefix` calls on one calculator
(fixed `isHanzi`, no `resetState`/`resetInterimTracking` in between).  Each
call may be preceded by `calculateConfidence` updates, which rewrite the
word-stability buffer (and history fields) but never touch
`lastShownConfidentPrefix`; this is modelled by substituting an arbitrary
buffer before each call.  Returns the list of returned prefixes. -/
def runNonShrinking (sq : ℚ → ℚ) (isHanzi : Bool) (heuristic : ConfidenceHeuristic) :
    CalcState → List (List WordDetail × String × ℚ) → List String
  | _, [] => []
  | s, (buf, t, th) :: rest =>
    let s1 := { s with wordStabilityBuffer := buf }
    let r := getNonShrinkingConfidentPrefix sq s1 t th isHanzi heuristic
    r.1 :: runNonShrinking sq isHanzi heuristic r.2 rest

/-- Token count of a string under the calculator's own tokenizer
(`splitWords`, the measure `getNonShrinkingConfidentPrefix` itself compares).
Note that JavaScript `"".split(/\s+/)` is `[""]`, so the empty non-Hanzi
prefix counts as one token under this measure, not zero. -/
def tokenCount (isHanzi : Bool) (text : String) : ℕ := (splitWords text isHanzi).length

/-- Token count of an emitted prefix as C1's text reads it: the empty prefix
carries no tokens.  It differs from the code's own `tokenCount` exactly on the
empty non-Hanzi string, which the code counts as one token. -/
def plainTokenCount (isHanzi : Bool) (text : String) : ℕ :=
  if text = "" then 0 else (splitWords text isHanzi).length

theorem nonShrinking_step (sq : ℚ → ℚ) (s : CalcState) (t : String) (th : ℚ)
    (hz : Bool) (he : ConfidenceHeuristic) :
    tokenCount hz s.lastShownConfidentPrefix
        ≤ tokenCount hz (getNonShrinkingConfidentPrefix sq s t th hz he).1 ∧
      (getNonShrinkingConfidentPrefix sq s t th hz he).2.lastShownConfidentPrefix
        = (getNonShrinkingConfidentPrefix sq s t th hz he).1 := by
  unfold getNonShrinkingConfidentPrefix
  by_cases h : (splitWords (getConfidentPrefix sq s t th hz he) hz).length
      ≥ (splitWords s.lastShownConfidentPrefix hz).length
  · simp [h, tokenCount]
  · simp [h, tokenCount]

theorem runNonShrinking_chain (sq : ℚ → ℚ) (hz : Bool) (he : ConfidenceHeuristic) :
    ∀ (inputs : List (List WordDetail × String × ℚ)) (s : CalcState),
      List.Chain (fun a b => tokenCount hz a ≤ tokenCount hz b)
        s.lastShownConfidentPrefix (runNonShrinking sq hz he s inputs)
  | [], _ => List.Chain.nil
  | (buf, t, th) :: rest, s => by
    have hstep := nonShrinking_step sq { s with wordStabilityBuffer := buf } t th hz he
    refine List.Chain.cons hstep.1 ?_
    have := runNonShrinking_chain sq hz he rest
      (getNonShrinkingConfidentPrefix sq { s with wordStabilityBuffer := buf } t th hz he).2
    rw [hstep.2] at this
    exact this

/-- C1 (amended): over any sequence of `getNonShrinkingConfidentPrefix` calls
on one calculator (fixed `isHanzi`, no resets, with arbitrary buffer updates
in between), the `splitWords` token count of the returned prefix — the code's
own measure, under which the empty non-Hanzi prefix counts as one token
because `"".split(/\s+/)` is `[""]` — is monotonically non-decreasing; and
whenever the freshly computed confident prefix has a smaller `splitWords`
count than the remembered one, the previous prefix is returned unchanged and
the state (including the remembered prefix) is not updated.  Under the plain
token count, where the empty prefix has zero tokens, monotonicity fails: a
remembered one-token prefix is overwritten by the empty prefix (see the
counterexample). -/
theorem nonShrinkingConfidentPrefix_monotone (sq : ℚ → ℚ) (hz : Bool)
    (he : ConfidenceHeuristic) (s : CalcState)
    (inputs : List (List WordDetail × String × ℚ)) :
    List.Chain' (fun a b => tokenCount hz a ≤ tokenCount hz b)
        (runNonShrinking sq hz he s inputs) ∧
      ∀ (s' : CalcState) (t : String) (th : ℚ),
        tokenCount hz (getConfidentPrefix sq s' t th hz he)
            < tokenCount hz s'.lastShownConfidentPrefix →
          (getNonShrinkingConfidentPrefix sq s' t th hz he).1
              = s'.lastShownConfidentPrefix ∧
            (getNonShrinkingConfidentPrefix sq s' t th hz he).2 = s' := by
  constructor
  · have h := runNonShrinking_chain sq hz he inputs s
    cases hrun : runNonShrinking sq hz he s inputs with
    | nil => exact trivial
    | cons x l =>
      rw [hrun] at h
      exact (List.chain_cons.mp h).2
  · intro s' t th hlt
    have hnot : ¬ ((splitWords (getConfidentPrefix sq s' t th hz he) hz).length
        ≥ (splitWords s'.lastShownConfidentPrefix hz).length) := by
      simpa [tokenCount] using Nat.not_le_of_lt hlt
    unfold getNonShrinkingConfidentPrefix
    simp [hnot]

/-- Witness for C1: on a calculator whose remembered prefix is the two-token
Hanzi string `"ab"`, a transcript whose confident prefix is empty (empty
buffer, threshold 0.9) returns the remembered `"ab"` unchanged. -/
theorem nonShrinkingConfidentPrefix_monotone_witness :
    (getNonShrinkingConfidentPrefix (fun _ => 0)
        { initCalcState with lastShownConfidentPrefix := "ab" }
        "xy" (9/10) true .WordStability).1 = "ab" :=
  ((nonShrinkingConfidentPrefix_monotone (fun _ => 0) true .WordStability
      initCalcState []).2
    { initCalcState with lastShownConfidentPrefix := "ab" } "xy" (9/10)
    (by decide)).1

/-- C1 counterexample: with remembered prefix `"the"` (one token) and an
interim `"foo bar"` whose confident prefix is empty (empty buffer, every
token scores 0.2 < threshold 0.4), the newly computed prefix has fewer tokens
than the previous one (0 < 1), yet `getNonShrinkingConfidentPrefix` returns
`""` — not the previous `"the"` unchanged — and overwrites the stored memory
with `""`: `splitWords` counts the empty string as one token, so the
`newLength ≥ lastLength` update guard (types.ts:588) passes. -/
theorem nonShrinking_counterexample :
    plainTokenCount false (getConfidentPrefix (fun _ => 0)
        { initCalcState with lastShownConfidentPrefix := "the" } "foo bar" (2/5) false
        .WordStability)
        < plainTokenCount false
          ({ initCalcState with
            lastShownConfidentPrefix := "the" } : CalcState).lastShownConfidentPrefix ∧
      (getNonShrinkingConfidentPrefix (fun _ => 0)
          { initCalcState with lastShownConfidentPrefix := "the" } "foo bar" (2/5) false
          .WordStability).1 = "" ∧
      (getNonShrinkingConfidentPrefix (fun _ => 0)
          { initCalcState with lastShownConfidentPrefix := "the" } "foo bar" (2/5) false
          .WordStability).2.lastShownConfidentPrefix = "" ∧
      ¬ ((getNonShrinkingConfidentPrefix (fun _ => 0)
          { initCalcState with lastShownConfidentPrefix := "the" } "foo bar" (2/5) false
          .WordStability).1 = "the") := by
  refine ⟨by decide, by decide, by decide, by decide⟩

theorem confidentScan_spec (sq : ℚ → ℚ) (buffer : List WordDetail)
    (currentWords : List String) (th : ℚ) :
    ∀ (ws : List String) (i : ℕ),
      ∃ k, k ≤ ws.length ∧
        confidentScan sq buffer currentWords th i ws = ws.take k ∧
        (∀ j, j < k → tokenConfidence sq buffer currentWords (i + j) (ws.getD j "") ≥ th) ∧
        (k = ws.length ∨
          ¬ tokenConfidence sq buffer currentWords (i + k) (ws.getD k "") ≥ th)
  | [], i => ⟨0, by simp [confidentScan]⟩
  | w :: rest, i => by
    by_cases h : tokenConfidence sq buffer currentWords i w ≥ th
    · obtain ⟨k, hk, hscan, hconf, hstop⟩ := confidentScan_spec sq buffer currentWords th rest (i + 1)
      refine ⟨k + 1, by simpa using Nat.succ_le_succ hk, ?_, ?_, ?_⟩
      · simp [confidentScan, h, hscan]
      · intro j hj
        cases j with
        | zero => simpa using h
        | succ j' =>
          have h2 := hconf j' (Nat.lt_of_succ_lt_succ hj)
          have hidx : i + (j' + 1) = i + 1 + j' := by omega
          simpa [hidx] using h2
      · rcases hstop with hlen | hfail
        · exact Or.inl (by simp [hlen])
        · refine Or.inr ?_
          have hidx : i + (k + 1) = i + 1 + k := by omega
          simpa [hidx] using hfail
    · exact ⟨0, by simp [confidentScan, h]⟩

/-- C2: `getConfidentPrefix` always returns a left-anchored prefix of the
transcript's token sequence (joined by spaces, or concatenated when
`isHanzi`): there is a cut `k` such that the result is the join of the first
`k` tokens, every included token's confidence — `min(1, stableCount/3)` times
its position consistency, `0.2` when unmatched — meets the threshold, and the
scan stopped either at the end or at the first token whose confidence fails
the threshold. -/
theorem getConfidentPrefix_left_anchored (sq : ℚ → ℚ) (s : CalcState)
    (t : String) (th : ℚ) (hz : Bool) (he : ConfidenceHeuristic) :
    ∃ k, k ≤ (splitWords t hz).length ∧
      getConfidentPrefix sq s t th hz he
          = joinWords hz ((splitWords t hz).take k) ∧
      (∀ j, j < k →
        tokenConfidence sq s.wordStabilityBuffer (splitWords t hz) j
            ((splitWords t hz).getD j "") ≥ th) ∧
      (k = (splitWords t hz).length ∨
        ¬ tokenConfidence sq s.wordStabilityBuffer (splitWords t hz) k
            ((splitWords t hz).getD k "") ≥ th) := by
  obtain ⟨k, hk, hscan, hconf, hstop⟩ :=
    confidentScan_spec sq s.wordStabilityBuffer (splitWords t hz) th (splitWords t hz) 0
  refine ⟨k, hk, ?_, by simpa using hconf, by simpa using hstop⟩
  show joinWords hz (confidentScan sq s.wordStabilityBuffer (splitWords t hz) th 0
    (splitWords t hz)) = _
  rw [hscan]

/-- C8 counterexample input: a buffered token (`stableCount = 2`, last seen at
time 0) that is absent from the next interim, processed at time 9000 ms. -/
def staleDetail : WordDetail :=
  { word := "qq", normalizedWord := "qq", stableCount := 2, firstSeen := 0,
    lastSeen := 0, bestPosition := 0, positionHistory := [0] }

/-- Calculator state holding only `staleDetail` in the word-stability buffer. -/
def staleState : CalcState := { initCalcState with wordStabilityBuffer := [staleDetail] }

/-- C8 counterexample: at age 7000 ms past the decay threshold the claimed
decay factor is `max(0.1, 1 − (9000−2000)/5000) = 0.1`, so the claim predicts
`stableCount = 2 · 0.1 = 0.2 < 0.5` and discard; the code instead floors the
product at 1 (`Math.max(1, …)`) and keeps the token: after the update the
buffer holds `("qq", 1)`. -/
theorem wordStability_decay_counterexample :
    ((calculateWordStability (fun _ => 0) 9000 "zz" false staleState).2.wordStabilityBuffer.map
        fun d => (d.word, d.stableCount)) = [("zz", 1), ("qq", 1)] ∧
      (2 : ℚ) * max (1/10) (1 - ((9000 - (0 : ℤ) : ℚ) - 2000) / 5000) = 1/5 ∧
      ¬ ((1 : ℚ) = 1/5) ∧ (1/5 : ℚ) < 1/2 := by
  refine ⟨by decide, by decide, by decide, by decide⟩

theorem retainDecayed_cons (acc : List WordDetail) (oldDetail : WordDetail)
    (rest : List WordDetail) :
    retainDecayed acc (oldDetail :: rest)
      = if keepDetail acc oldDetail then retainDecayed (acc ++ [oldDetail]) rest
        else retainDecayed acc rest := rfl

theorem retainDecayed_mono (d : WordDetail) :
    ∀ (old acc : List WordDetail), d ∈ acc → d ∈ retainDecayed acc old
  | [], _, h => h
  | oldDetail :: rest, acc, h => by
    rw [retainDecayed_cons]
    by_cases hc : keepDetail acc oldDetail = true
    · rw [if_pos hc]
      exact retainDecayed_mono d rest (acc ++ [oldDetail]) (List.mem_append.mpr (Or.inl h))
    · rw [if_neg hc]
      exact retainDecayed_mono d rest acc h

theorem retainDecayed_append :
    ∀ (l₁ l₂ acc : List WordDetail),
      retainDecayed acc (l₁ ++ l₂) = retainDecayed (retainDecayed acc l₁) l₂
  | [], _, _ => rfl
  | oldDetail :: rest, l₂, acc => by
    rw [List.cons_append, retainDecayed_cons, retainDecayed_cons]
    by_cases hc : keepDetail acc oldDetail = true
    · rw [if_pos hc, if_pos hc]
      exact retainDecayed_append rest l₂ (acc ++ [oldDetail])
    · rw [if_neg hc, if_neg hc]
      exact retainDecayed_append rest l₂ acc

/-- Two identical absent tokens: the second one is dropped by the retention
loop because it matches the first one, retained just before it. -/
def staleGo0 : WordDetail :=
  { word := "go", normalizedWord := "go", stableCount := 2, firstSeen := 0,
    lastSeen := 0, bestPosition := 0, positionHistory := [0] }

/-- See `staleGo0`. -/
def staleGo1 : WordDetail :=
  { word := "go", normalizedWord := "go", stableCount := 2, firstSeen := 0,
    lastSeen := 0, bestPosition := 1, positionHistory := [1] }

/-- C8 (amended): a buffered token absent for more than 2 s has its
`stableCount` replaced by `max(1, stableCount · max(0.1, 1 − (age − 2 s)/5 s))`
— the decay product is floored at 1 — on the next `calculateWordStability`
update.  The retention test discards tokens with `stableCount ≤ 0.5`, which
never fires because a decayed token's `stableCount` is at least 1; instead, an
absent decayed token survives into the new buffer when, at its turn in the
retention loop, it does not match (word similarity > 0.8) the buffer
accumulated so far — the processed current words together with the absent
tokens already retained earlier in the loop.  In particular a second absent
token similar to an already-retained one is discarded, as the concrete
two-token run in the last conjunct shows. -/
theorem wordStability_decay_floored (sq : ℚ → ℚ) (now : ℤ) (t : String) (hz : Bool)
    (s : CalcState) (d₀ : WordDetail) (hmem : d₀ ∈ s.wordStabilityBuffer)
    (hage : now - d₀.lastSeen > 2000) :
    ({ d₀ with stableCount := max 1 (d₀.stableCount
          * max (1/10) (1 - (((now - d₀.lastSeen : ℤ) : ℚ) - 2000) / 5000)) }
        ∈ decayBuffer now s.wordStabilityBuffer) ∧
      (1 : ℚ) ≤ max 1 (d₀.stableCount
          * max (1/10) (1 - (((now - d₀.lastSeen : ℤ) : ℚ) - 2000) / 5000)) ∧
      (∀ pre post : List WordDetail, splitWords t hz ≠ [] →
        decayBuffer now s.wordStabilityBuffer
          = pre ++ { d₀ with stableCount := max 1 (d₀.stableCount
              * max (1/10) (1 - (((now - d₀.lastSeen : ℤ) : ℚ) - 2000) / 5000)) } :: post →
        ((retainDecayed (stabilityProcessWords sq now
              (decayBuffer now s.wordStabilityBuffer)
              (splitWords t hz) 0 (splitWords t hz)).1 pre).any
            (fun nd => wordSimilarity d₀.word nd.word > 4/5)) = false →
        { d₀ with stableCount := max 1 (d₀.stableCount
            * max (1/10) (1 - (((now - d₀.lastSeen : ℤ) : ℚ) - 2000) / 5000)) }
          ∈ (calculateWordStability sq now t hz s).2.wordStabilityBuffer) ∧
      ((calculateWordStability (fun _ => 0) 9000 "zz" false
          { initCalcState with
            wordStabilityBuffer := [staleGo0, staleGo1] }).2.wordStabilityBuffer.map
        (fun nd => nd.word)) = ["zz", "go"] := by
  set d := { d₀ with stableCount := max 1 (d₀.stableCount
      * max (1/10) (1 - (((now - d₀.lastSeen : ℤ) : ℚ) - 2000) / 5000)) } with hd
  have hdec : d ∈ decayBuffer now s.wordStabilityBuffer := by
    unfold decayBuffer
    refine List.mem_map.mpr ⟨d₀, hmem, ?_⟩
    rw [if_pos hage]
  have hone : (1 : ℚ) ≤ d.stableCount := le_max_left _ _
  refine ⟨hdec, hone, ?_, by decide⟩
  intro pre post hne hsplit hnm
  have hlen : ¬ (splitWords t hz).length = 0 := by
    simpa [List.length_eq_zero] using hne
  unfold calculateWordStability
  rw [if_neg hlen]
  show d ∈ retainDecayed
    (stabilityProcessWords sq now (decayBuffer now s.wordStabilityBuffer)
      (splitWords t hz) 0 (splitWords t hz)).1
    (decayBuffer now s.wordStabilityBuffer)
  rw [hsplit] at hnm ⊢
  rw [retainDecayed_append]
  have hword : d.word = d₀.word := rfl
  have hhalf : ((1 : ℚ)/2 < d.stableCount) := lt_of_lt_of_le (by norm_num) hone
  have hkeep : keepDetail (retainDecayed (stabilityProcessWords sq now
      (pre ++ d :: post) (splitWords t hz) 0 (splitWords t hz)).1 pre) d = true := by
    unfold keepDetail
    simp only [hword, hnm, Bool.not_false, Bool.true_and]
    exact decide_eq_true hhalf
  rw [retainDecayed_cons, if_pos hkeep]
  exact retainDecayed_mono d post _
    (List.mem_append.mpr (Or.inr (List.mem_singleton.mpr rfl)))

/-- Witness for C8 (amended): applying the theorem at `staleState`, time 9000,
transcript `"zz"` (the decayed token is the only old entry, so `pre` and
`post` are empty and nothing in the accumulated buffer matches it): the token,
floored at `stableCount = 1`, is kept in the updated buffer. -/
theorem wordStability_decay_floored_witness :
    { staleDetail with stableCount := max 1 (staleDetail.stableCount
        * max (1/10) (1 - (((9000 - staleDetail.lastSeen : ℤ) : ℚ) - 2000) / 5000)) }
      ∈ (calculateWordStability (fun _ => 0) 9000 "zz" false staleState).2.wordStabilityBuffer :=
  (wordStability_decay_floored (fun _ => 0) 9000 "zz" false staleState staleDetail
      (by decide) (by decide)).2.2.1 [] [] (by decide) (by decide) (by decide)

/-- C9 counterexample: on a fresh calculator, `calculateConfidence("")` with
the `TrailingWordDecay` heuristic (non-Hanzi) returns 1, not 0: JavaScript
`"".split(/\s+/)` is `[""]`, one token, whose trailing-decay weight is 1. -/
theorem emptyTranscript_counterexample :
    (calculateConfidence (fun _ => 0) 0 "" false .TrailingWordDecay initCalcState).1 = some 1
      ∧ ¬ ((1 : ℚ) = 0) := by
  refine ⟨by decide, by decide⟩

/-- C9 (amended): `getConfidentPrefix("", threshold)` returns `""` in every
state; on a fresh calculator, `calculateConfidence("")` returns a zero score
for every heuristic other than `None` when `isHanzi` is true; when `isHanzi`
is false the empty string tokenizes to the single empty token `[""]`, so
`WordStability` returns 0.2, `TrailingWordDecay` returns 1 and `Hybrid`
returns 0.18, while `PrefixRetention`, `EditDistance` and `WordDuration`
return 0. -/
theorem emptyTranscript_behavior :
    (∀ (sq : ℚ → ℚ) (s : CalcState) (th : ℚ) (hz : Bool) (he : ConfidenceHeuristic),
        getConfidentPrefix sq s "" th hz he = "") ∧
      (∀ (sq : ℚ → ℚ) (now : ℤ) (he : ConfidenceHeuristic), he ≠ .None →
        (calculateConfidence sq now "" true he initCalcState).1 = some 0) ∧
      (∀ (sq : ℚ → ℚ) (now : ℤ),
        (calculateConfidence sq now "" false .WordStability initCalcState).1 = some (1/5) ∧
        (calculateConfidence sq now "" false .TrailingWordDecay initCalcState).1 = some 1 ∧
        (calculateConfidence sq now "" false .PrefixRetention initCalcState).1 = some 0 ∧
        (calculateConfidence sq now "" false .EditDistance initCalcState).1 = some 0 ∧
        (calculateConfidence sq now "" false .WordDuration initCalcState).1 = some 0 ∧
        (calculateConfidence sq now "" false .Hybrid initCalcState).1 = some (9/50)) := by
  refine ⟨?_, ?_, ?_⟩
  · intro sq s th hz he
    cases hz with
    | true => rfl
    | false =>
      show joinWords false (confidentScan sq s.wordStabilityBuffer
        (splitWords "" false) th 0 (splitWords "" false)) = ""
      rw [show splitWords "" false = [""] from rfl]
      by_cases h : tokenConfidence sq s.wordStabilityBuffer [""] 0 "" ≥ th
      · simp only [confidentScan, if_pos h]
        rfl
      · simp only [confidentScan, if_neg h]
        rfl
  · intro sq now he hne
    cases he with
    | None => exact absurd rfl hne
    | WordStability => rfl
    | PrefixRetention => rfl
    | EditDistance => rfl
    | WordDuration => rfl
    | TrailingWordDecay => rfl
    | Hybrid =>
      show some (max 0 (min 1 ((4/10 : ℚ) * 0 + (3/10) * 0 + (2/10) * 0 + (1/10) * 0)))
        = some 0
      norm_num
  · intro sq now
    refine ⟨?_, ?_, rfl, rfl, ?_, ?_⟩
    · show some ((1/5 + 0) / ((1 : ℚ))) = some (1/5)
      norm_num
    · show some (((0 + 1) / 1 : ℚ) / 1) = some 1
      norm_num
    · show some (if ((1 : ℚ) + 0) = 0 then (0 : ℚ)
        else min 1 ((((now - now : ℤ) : ℚ) * 1 + 0) / (1 + 0) / 1000)) = some 0
      rw [if_neg (by norm_num)]
      rw [sub_self]
      norm_num
    · show some (max 0 (min 1 ((4/10 : ℚ) * ((1/5 + 0) / 1) + (3/10) * 0 + (2/10) * 0
        + (1/10) * ((0 + 1) / 1 / 1)))) = some (9/50)
      norm_num

/-- Witness for C9 (amended): on a fresh calculator with `isHanzi = true`,
`calculateConfidence("")` under `WordStability` scores zero. -/
theorem emptyTranscript_behavior_witness :
    (calculateConfidence (fun _ => 0) 0 "" true .WordStability initCalcState).1 = some 0 :=
  emptyTranscript_behavior.2.1 (fun _ => 0) 0 .WordStability (by decide)

/-! ## ConversationManager (conversation log)

`ConversationManager` keeps a `Map<string, TranslationEntry>` keyed by ids of
the form `entry-${n}` where `n` is the strictly increasing `entryCounter`.
Since `n ↦ "entry-" + n.toString` is injective, ids are represented here by
their numeric component `n : ℕ`; the JS `Map` (unique keys) is represented by
an association list with `Map.set`/`Map.delete`/`Map.get` semantics. -/

/-- `TranslationEntry` (the server-side interface): `isNewUtterance` is an
optional field (`none` models the field being absent). -/
structure TranslationEntry where
  id : ℕ
  timestamp : ℤ
  originalText : String
  translatedText : String
  originalLanguage : String
  translatedLanguage : String
  isFinal : Bool
  isNewUtterance : Option Bool
  deriving Repr, DecidableEq

/-- `LanguagePair`. -/
structure LanguagePair where
  from_ : String
  to_ : String
  deriving Repr, DecidableEq

/-- JS `Map.get`: the value stored at `k`, if any. -/
def mapGet {β : Type} : List (ℕ × β) → ℕ → Option β
  | [], _ => none
  | (k', v) :: rest, k => if k' = k then some v else mapGet rest k

/-- JS `Map.set`: replace the value at an existing key in place, otherwise
append a new binding. -/
def mapSet {β : Type} : List (ℕ × β) → ℕ → β → List (ℕ × β)
  | [], k, v => [(k, v)]
  | (k', v') :: rest, k, v =>
    if k' = k then (k, v) :: rest else (k', v') :: mapSet rest k v

/-- JS `Map.delete`: remove the binding at `k` (keys are unique). -/
def mapDelete {β : Type} : List (ℕ × β) → ℕ → List (ℕ × β)
  | [], _ => []
  | (k', v') :: rest, k => if k' = k then rest else (k', v') :: mapDelete rest k

/-- Mutable state of a `ConversationManager`. -/
structure ConvState where
  entries : List (ℕ × TranslationEntry)
  entryOrder : List ℕ
  currentInterimId : Option ℕ
  entryCounter : ℕ
  languagePair : LanguagePair
  deriving Repr, DecidableEq

/-- `maxEntries = 500`. -/
def maxEntries : ℕ := 500

/-- The freshly-constructed manager. -/
def initConvState : ConvState :=
  { entries := []
    entryOrder := []
    currentInterimId := none
    entryCounter := 0
    languagePair := { from_ := "Unknown", to_ := "Unknown" } }

/-- The `maxEntries` limit block of `addTranslation`: when the order list has
grown past the limit, `shift()` the oldest id off the order list and delete it
from the map. -/
def evictOldest (s : ConvState) : ConvState :=
  if s.entryOrder.length > maxEntries then
    match s.entryOrder with
    | oldestId :: rest =>
      { s with entryOrder := rest, entries := mapDelete s.entries oldestId }
    | [] => s
  else s

/-- `addTranslation` (ConversationManager): the three branches — update the
current interim in place, promote the current interim to final, or create a
new entry (with FIFO eviction past `maxEntries`).  `now` models `Date.now()`.
The source's return type is `TranslationEntry | null`; `Option` models it. -/
def addTranslation (s : ConvState) (now : ℤ)
    (originalText translatedText originalLanguage translatedLanguage : String)
    (isFinal : Bool) : Option TranslationEntry × ConvState :=
  match isFinal, s.currentInterimId with
  | false, some interimId =>
    let entry : TranslationEntry :=
      { id := interimId, timestamp := now, originalText, translatedText,
        originalLanguage, translatedLanguage, isFinal := false,
        isNewUtterance := none }
    (some entry, { s with entries := mapSet s.entries interimId entry })
  | true, some interimId =>
    let entry : TranslationEntry :=
      { id := interimId, timestamp := now, originalText, translatedText,
        originalLanguage, translatedLanguage, isFinal := true,
        isNewUtterance := some true }
    (some entry,
      { s with
        entries := mapSet s.entries interimId entry
        currentInterimId := none })
  | isFinal, none =>
    let id := s.entryCounter + 1
    let entry : TranslationEntry :=
      { id := id, timestamp := now, originalText, translatedText,
        originalLanguage, translatedLanguage, isFinal := isFinal,
        isNewUtterance := some isFinal }
    let s1 : ConvState :=
      { s with
        entryCounter := id
        entries := mapSet s.entries id entry
        entryOrder := s.entryOrder ++ [id]
        currentInterimId := if isFinal then none else some id }
    (some entry, evictOldest s1)

/-- `getAllEntries`: map the order list through the map, dropping ids with no
entry (`filter(entry => entry !== undefined)`). -/
def getAllEntries (s : ConvState) : List TranslationEntry :=
  s.entryOrder.filterMap (fun id => mapGet s.entries id)

/-- `clear`. -/
def clearLog (_s : ConvState) : ConvState := initConvState

/-- `getEntryCount`. -/
def getEntryCount (s : ConvState) : ℕ := s.entryOrder.length

/-- `setLanguagePair`. -/
def setLanguagePair (s : ConvState) (f t : String) : ConvState :=
  { s with languagePair := { from_ := f, to_ := t } }

/-- The operations a caller can perform on one `ConversationManager`. -/
inductive ConvOp where
  | add (now : ℤ) (originalText translatedText originalLanguage translatedLanguage : String)
      (isFinal : Bool)
  | clearOp
  | setLang (f t : String)
  deriving Repr, DecidableEq

/-- Apply one operation to the manager state. -/
def applyOp (s : ConvState) : ConvOp → ConvState
  | .add now ot tt ol tl fin => (addTranslation s now ot tt ol tl fin).2
  | .clearOp => clearLog s
  | .setLang f t => setLanguagePair s f t

/-- Run a list of operations from a state. -/
def runOps (s : ConvState) (ops : List ConvOp) : ConvState :=
  ops.foldl applyOp s

/-- Internal well-formedness of a manager state, maintained by every
operation from the initial state. -/
structure ConvInv (s : ConvState) : Prop where
  keysNodup : (s.entries.map Prod.fst).Nodup
  keysBound : ∀ p ∈ s.entries, p.1 ≤ s.entryCounter
  keysId : ∀ p ∈ s.entries, (p.2 : TranslationEntry).id = p.1
  orderBound : ∀ id ∈ s.entryOrder, id ≤ s.entryCounter
  orderNodup : s.entryOrder.Nodup
  orderInMap : ∀ id ∈ s.entryOrder, (mapGet s.entries id).isSome
  sizeBound : s.entryOrder.length ≤ maxEntries
  interimOk : ∀ iid, s.currentInterimId = some iid →
    ∃ e, mapGet s.entries iid = some e ∧ e.isFinal = false

theorem mapGet_mapSet_self {β : Type} (m : List (ℕ × β)) (k : ℕ) (v : β) :
    mapGet (mapSet m k v) k = some v := by
  induction m with
  | nil => simp [mapSet, mapGet]
  | cons p rest ih =>
    obtain ⟨k', v'⟩ := p
    by_cases h : k' = k
    · simp [mapSet, h, mapGet]
    · simp [mapSet, h, mapGet, ih]

theorem mapGet_mapSet_ne {β : Type} (m : List (ℕ × β)) (k : ℕ) (v : β) (k' : ℕ)
    (h : k' ≠ k) : mapGet (mapSet m k v) k' = mapGet m k' := by
  induction m with
  | nil =>
    simp only [mapSet, mapGet]
    rw [if_neg (fun he => h (Eq.symm he))]
  | cons p rest ih =>
    obtain ⟨k₀, v₀⟩ := p
    by_cases h0 : k₀ = k
    · subst h0
      simp only [mapSet, if_pos rfl, mapGet]
      rw [if_neg (fun he => h (Eq.symm he)), if_neg (fun he => h (Eq.symm he))]
    · simp only [mapSet, if_neg h0, mapGet]
      by_cases h1 : k₀ = k'
      · rw [if_pos h1, if_pos h1]
      · rw [if_neg h1, if_neg h1]
        exact ih

theorem mapGet_eq_none {β : Type} (m : List (ℕ × β)) (k : ℕ) :
    mapGet m k = none ↔ k ∉ m.map Prod.fst := by
  induction m with
  | nil => simp [mapGet]
  | cons p rest ih =>
    obtain ⟨k', v'⟩ := p
    by_cases h : k' = k
    · simp [mapGet, h]
    · simp [mapGet, h, ih, Ne.symm h]

theorem mapGet_mem {β : Type} (m : List (ℕ × β)) (k : ℕ) (v : β)
    (h : mapGet m k = some v) : (k, v) ∈ m := by
  induction m with
  | nil => simp [mapGet] at h
  | cons p rest ih =>
    obtain ⟨k', v'⟩ := p
    by_cases h0 : k' = k
    · subst h0
      simp [mapGet] at h
      simp [h]
    · simp only [mapGet, if_neg h0] at h
      exact List.mem_cons_of_mem _ (ih h)

theorem keys_mapSet_mem {β : Type} (m : List (ℕ × β)) (k : ℕ) (v : β)
    (h : k ∈ m.map Prod.fst) : (mapSet m k v).map Prod.fst = m.map Prod.fst := by
  induction m with
  | nil => simp at h
  | cons p rest ih =>
    obtain ⟨k', v'⟩ := p
    by_cases h0 : k' = k
    · simp [mapSet, h0]
    · have h' : k ∈ rest.map Prod.fst := by
        simp only [List.map_cons, List.mem_cons] at h
        rcases h with h | h
        · exact absurd (Eq.symm h) h0
        · exact h
      simp [mapSet, h0, ih h']

theorem keys_mapSet_not_mem {β : Type} (m : List (ℕ × β)) (k : ℕ) (v : β)
    (h : k ∉ m.map Prod.fst) :
    (mapSet m k v).map Prod.fst = m.map Prod.fst ++ [k] := by
  induction m with
  | nil => simp [mapSet]
  | cons p rest ih =>
    obtain ⟨k', v'⟩ := p
    simp only [List.map_cons, List.mem_cons] at h
    push_neg at h
    have hne : ¬ (k' = k) := fun he => h.1 (Eq.symm he)
    simp [mapSet, hne, ih h.2]

theorem mem_mapSet {β : Type} (m : List (ℕ × β)) (k : ℕ) (v : β) (p : ℕ × β)
    (h : p ∈ mapSet m k v) : p = (k, v) ∨ p ∈ m := by
  induction m with
  | nil => simpa [mapSet] using h
  | cons q rest ih =>
    obtain ⟨k', v'⟩ := q
    by_cases h0 : k' = k
    · simp only [mapSet, if_pos h0, List.mem_cons] at h
      rcases h with h | h
      · exact Or.inl h
      · exact Or.inr (List.mem_cons_of_mem _ h)
    · simp only [mapSet, if_neg h0, List.mem_cons] at h
      rcases h with h | h
      · exact Or.inr (by simp [h])
      · rcases ih h with h | h
        · exact Or.inl h
        · exact Or.inr (List.mem_cons_of_mem _ h)

theorem mapDelete_sublist {β : Type} (m : List (ℕ × β)) (k : ℕ) :
    List.Sublist (mapDelete m k) m := by
  induction m with
  | nil => simp [mapDelete]
  | cons p rest ih =>
    obtain ⟨k', v'⟩ := p
    by_cases h0 : k' = k
    · simp only [mapDelete, if_pos h0]
      exact List.sublist_cons_self (k', v') rest
    · simp only [mapDelete, if_neg h0]
      exact List.Sublist.cons₂ (k', v') ih

theorem mapGet_mapDelete_ne {β : Type} (m : List (ℕ × β)) (k k' : ℕ) (h : k' ≠ k) :
    mapGet (mapDelete m k) k' = mapGet m k' := by
  induction m with
  | nil => simp [mapDelete]
  | cons p rest ih =>
    obtain ⟨k₀, v₀⟩ := p
    by_cases h0 : k₀ = k
    · subst h0
      simp only [mapDelete, if_true, eq_self_iff_true]
      simp only [mapGet]
      rw [if_neg (fun he => h (Eq.symm he))]
    · simp only [mapDelete, if_neg h0, mapGet]
      by_cases h1 : k₀ = k'
      · rw [if_pos h1, if_pos h1]
      · rw [if_neg h1, if_neg h1]
        exact ih

theorem mapGet_mapDelete_self {β : Type} (m : List (ℕ × β)) (k : ℕ)
    (h : (m.map Prod.fst).Nodup) : mapGet (mapDelete m k) k = none := by
  induction m with
  | nil => simp [mapDelete, mapGet]
  | cons p rest ih =>
    obtain ⟨k', v'⟩ := p
    simp only [List.map_cons, List.nodup_cons] at h
    by_cases h0 : k' = k
    · subst h0
      simp only [mapDelete, if_pos rfl]
      exact (mapGet_eq_none rest k').mpr h.1
    · simp only [mapDelete, if_neg h0, mapGet, if_neg h0]
      exact ih h.2

theorem convInv_createCore (s : ConvState) (hinv : ConvInv s) (e : TranslationEntry)
    (hid : e.id = s.entryCounter + 1) (ci : Option ℕ)
    (hci : ci = none ∨ (ci = some (s.entryCounter + 1) ∧ e.isFinal = false)) :
    ConvInv (evictOldest
      { s with
        entryCounter := s.entryCounter + 1
        entries := mapSet s.entries (s.entryCounter + 1) e
        entryOrder := s.entryOrder ++ [s.entryCounter + 1]
        currentInterimId := ci }) := by
  have hfreshKeys : (s.entryCounter + 1) ∉ s.entries.map Prod.fst := by
    intro hmem
    obtain ⟨p, hp, hfst⟩ := List.mem_map.mp hmem
    have := hinv.keysBound p hp
    omega
  have hkeys1 : (mapSet s.entries (s.entryCounter + 1) e).map Prod.fst
      = s.entries.map Prod.fst ++ [s.entryCounter + 1] :=
    keys_mapSet_not_mem _ _ _ hfreshKeys
  have hordfresh : (s.entryCounter + 1) ∉ s.entryOrder := by
    intro h
    have := hinv.orderBound _ h
    omega
  have hkeysNodup1 : ((mapSet s.entries (s.entryCounter + 1) e).map Prod.fst).Nodup := by
    rw [hkeys1]
    exact List.Nodup.append hinv.keysNodup (List.nodup_singleton _)
      (by simpa using hfreshKeys)
  have hkeysBound1 : ∀ p ∈ mapSet s.entries (s.entryCounter + 1) e,
      p.1 ≤ s.entryCounter + 1 := by
    intro p hp
    rcases mem_mapSet _ _ _ _ hp with h | h
    · subst h; rfl
    · exact Nat.le_succ_of_le (hinv.keysBound p h)
  have hkeysId1 : ∀ p ∈ mapSet s.entries (s.entryCounter + 1) e, p.2.id = p.1 := by
    intro p hp
    rcases mem_mapSet _ _ _ _ hp with h | h
    · subst h; exact hid
    · exact hinv.keysId p h
  have hordBound1 : ∀ id ∈ s.entryOrder ++ [s.entryCounter + 1],
      id ≤ s.entryCounter + 1 := by
    intro id hid'
    rcases List.mem_append.mp hid' with h | h
    · exact Nat.le_succ_of_le (hinv.orderBound id h)
    · simp at h; omega
  have hordNodup1 : (s.entryOrder ++ [s.entryCounter + 1]).Nodup :=
    List.Nodup.append hinv.orderNodup (List.nodup_singleton _) (by simpa using hordfresh)
  have hordInMap1 : ∀ id ∈ s.entryOrder ++ [s.entryCounter + 1],
      (mapGet (mapSet s.entries (s.entryCounter + 1) e) id).isSome := by
    intro id hid'
    rcases List.mem_append.mp hid' with h | h
    · have hne : id ≠ s.entryCounter + 1 := fun he => hordfresh (he ▸ h)
      rw [mapGet_mapSet_ne _ _ _ _ hne]
      exact hinv.orderInMap id h
    · simp at h
      subst h
      simp [mapGet_mapSet_self]
  have hinterim1 : ∀ iid, ci = some iid →
      ∃ e', mapGet (mapSet s.entries (s.entryCounter + 1) e) iid = some e'
        ∧ e'.isFinal = false := by
    intro iid hiid
    rcases hci with h | ⟨hcieq, hef⟩
    · rw [h] at hiid; exact absurd hiid (by simp)
    · rw [hcieq] at hiid
      have h2 : s.entryCounter + 1 = iid := by injection hiid
      subst h2
      exact ⟨e, mapGet_mapSet_self _ _ _, hef⟩
  unfold evictOldest
  by_cases hlen : (s.entryOrder ++ [s.entryCounter + 1]).length > maxEntries
  · rw [if_pos (by simpa using hlen)]
    cases h0 : s.entryOrder with
    | nil =>
      exfalso
      rw [h0] at hlen
      simp [maxEntries] at hlen
    | cons o r =>
      have hcons : s.entryOrder ++ [s.entryCounter + 1]
          = o :: (r ++ [s.entryCounter + 1]) := by rw [h0]; rfl
      show ConvInv
        { entries := mapDelete (mapSet s.entries (s.entryCounter + 1) e) o
          entryOrder := r ++ [s.entryCounter + 1]
          currentInterimId := ci
          entryCounter := s.entryCounter + 1
          languagePair := s.languagePair }
      have hoorder : o ∈ s.entryOrder := by rw [h0]; exact List.mem_cons_self o r
      have honew : o ≠ s.entryCounter + 1 := by
        have := hinv.orderBound o hoorder
        omega
      have hnodup_tail : (o :: (r ++ [s.entryCounter + 1])).Nodup := hcons ▸ hordNodup1
      have ho_notin : o ∉ r ++ [s.entryCounter + 1] :=
        (List.nodup_cons.mp hnodup_tail).1
      refine ⟨?_, ?_, ?_, ?_, ?_, ?_, ?_, ?_⟩
      · exact ((mapDelete_sublist _ _).map Prod.fst).nodup hkeysNodup1
      · intro p hp
        exact hkeysBound1 p ((mapDelete_sublist _ _).subset hp)
      · intro p hp
        exact hkeysId1 p ((mapDelete_sublist _ _).subset hp)
      · intro id hid'
        exact hordBound1 id (hcons ▸ List.mem_cons_of_mem o hid')
      · exact (List.nodup_cons.mp hnodup_tail).2
      · intro id hid'
        have hne : id ≠ o := fun he => ho_notin (he ▸ hid')
        rw [mapGet_mapDelete_ne _ _ _ hne]
        exact hordInMap1 id (hcons ▸ List.mem_cons_of_mem o hid')
      · have hr : r.length + 1 ≤ maxEntries := by
          have := hinv.sizeBound
          rw [h0] at this
          simpa using this
        simpa using hr
      · intro iid hiid
        obtain ⟨e', he', hef⟩ := hinterim1 iid hiid
        have hne : iid ≠ o := by
          intro he
          subst he
          rcases hci with h | ⟨hcieq, _⟩
          · rw [h] at hiid; exact absurd hiid (by simp)
          · rw [hcieq] at hiid
            have h2 : s.entryCounter + 1 = iid := by injection hiid
            exact honew (Eq.symm h2)
        exact ⟨e', by rw [mapGet_mapDelete_ne _ _ _ hne]; exact he', hef⟩
  · rw [if_neg (by simpa using hlen)]
    refine ⟨hkeysNodup1, hkeysBound1, hkeysId1, hordBound1, hordNodup1, hordInMap1,
      ?_, hinterim1⟩
    simpa using Nat.le_of_not_lt hlen

theorem convInv_create (s : ConvState) (now : ℤ) (ot tt ol tl : String) (fin : Bool)
    (hinv : ConvInv s) (hcur : s.currentInterimId = none) :
    ConvInv (addTranslation s now ot tt ol tl fin).2 := by
  unfold addTranslation
  rw [hcur]
  cases fin with
  | false =>
    exact convInv_createCore s hinv _ rfl _ (Or.inr ⟨rfl, rfl⟩)
  | true =>
    exact convInv_createCore s hinv _ rfl _ (Or.inl rfl)

/-- Every state reachable by operations from the fresh manager satisfies the
internal invariant. -/
theorem convInv_applyOp (s : ConvState) (op : ConvOp) (hinv : ConvInv s) :
    ConvInv (applyOp s op) := by
  cases op with
  | setLang f t =>
    exact ⟨hinv.keysNodup, hinv.keysBound, hinv.keysId, hinv.orderBound,
      hinv.orderNodup, hinv.orderInMap, hinv.sizeBound, hinv.interimOk⟩
  | clearOp =>
    refine ⟨by simp [applyOp, clearLog, initConvState], ?_, ?_, ?_, ?_, ?_, ?_, ?_⟩
      <;> simp [applyOp, clearLog, initConvState, maxEntries]
  | add now ot tt ol tl fin =>
    show ConvInv (addTranslation s now ot tt ol tl fin).2
    match hfin : fin, hcur : s.currentInterimId with
    | false, some iid =>
      obtain ⟨e₀, he₀, hef⟩ := hinv.interimOk iid hcur
      have hkey : iid ∈ s.entries.map Prod.fst := by
        refine List.mem_map.mpr ⟨(iid, e₀), mapGet_mem _ _ _ he₀, rfl⟩
      unfold addTranslation
      rw [hcur]
      refine ⟨?_, ?_, ?_, hinv.orderBound, hinv.orderNodup, ?_, hinv.sizeBound, ?_⟩
      · simpa [keys_mapSet_mem _ _ _ hkey] using hinv.keysNodup
      · intro p hp
        rcases mem_mapSet _ _ _ _ hp with h | h
        · subst h
          exact List.mem_map.mp hkey |>.elim fun q hq =>
            le_of_eq_of_le hq.2.symm (hinv.keysBound q hq.1)
        · exact hinv.keysBound p h
      · intro p hp
        rcases mem_mapSet _ _ _ _ hp with h | h
        · subst h; rfl
        · exact hinv.keysId p h
      · intro id hid
        by_cases h : id = iid
        · subst h
          simp [mapGet_mapSet_self]
        · rw [mapGet_mapSet_ne _ _ _ _ h]
          exact hinv.orderInMap id hid
      · intro iid' hiid'
        have hiid2 : (some iid : Option ℕ) = some iid' := hiid'
        have h3 : iid = iid' := by injection hiid2
        subst h3
        exact ⟨_, mapGet_mapSet_self _ _ _, rfl⟩
    | true, some iid =>
      obtain ⟨e₀, he₀, _⟩ := hinv.interimOk iid hcur
      have hkey : iid ∈ s.entries.map Prod.fst := by
        refine List.mem_map.mpr ⟨(iid, e₀), mapGet_mem _ _ _ he₀, rfl⟩
      unfold addTranslation
      rw [hcur]
      refine ⟨?_, ?_, ?_, hinv.orderBound, hinv.orderNodup, ?_, hinv.sizeBound, ?_⟩
      · simpa [keys_mapSet_mem _ _ _ hkey] using hinv.keysNodup
      · intro p hp
        rcases mem_mapSet _ _ _ _ hp with h | h
        · subst h
          exact List.mem_map.mp hkey |>.elim fun q hq =>
            le_of_eq_of_le hq.2.symm (hinv.keysBound q hq.1)
        · exact hinv.keysBound p h
      · intro p hp
        rcases mem_mapSet _ _ _ _ hp with h | h
        · subst h; rfl
        · exact hinv.keysId p h
      · intro id hid
        by_cases h : id = iid
        · subst h
          simp [mapGet_mapSet_self]
        · rw [mapGet_mapSet_ne _ _ _ _ h]
          exact hinv.orderInMap id hid
      · intro iid' hiid'
        simp at hiid'
    | fin, none => exact convInv_create s now ot tt ol tl fin hinv hcur

theorem convInv_init : ConvInv initConvState := by
  refine ⟨?_, ?_, ?_, ?_, ?_, ?_, ?_, ?_⟩ <;> simp [initConvState, maxEntries]

theorem convInv_runOpsFrom (s : ConvState) (hinv : ConvInv s) :
    ∀ ops : List ConvOp, ConvInv (runOps s ops)
  | [] => hinv
  | op :: rest =>
    convInv_runOpsFrom (applyOp s op) (convInv_applyOp s op hinv) rest

theorem convInv_runOps (ops : List ConvOp) : ConvInv (runOps initConvState ops) :=
  convInv_runOpsFrom initConvState convInv_init ops

/-- C10: `addTranslation` always returns a non-null entry: in every state and
for every combination of texts, languages and `isFinal`, the result is `some`
entry carrying exactly the given texts, languages and final flag — the `null`
case of the declared return type is never produced. -/
theorem addTranslation_never_null (s : ConvState) (now : ℤ)
    (ot tt ol tl : String) (fin : Bool) :
    ∃ e : TranslationEntry, (addTranslation s now ot tt ol tl fin).1 = some e ∧
      e.originalText = ot ∧ e.translatedText = tt ∧ e.originalLanguage = ol ∧
      e.translatedLanguage = tl ∧ e.isFinal = fin := by
  match hfin : fin, hcur : s.currentInterimId with
  | false, some iid =>
    refine ⟨⟨iid, now, ot, tt, ol, tl, false, none⟩, ?_, rfl, rfl, rfl, rfl, rfl⟩
    unfold addTranslation
    rw [hcur]
  | true, some iid =>
    refine ⟨⟨iid, now, ot, tt, ol, tl, true, some true⟩, ?_, rfl, rfl, rfl, rfl, rfl⟩
    unfold addTranslation
    rw [hcur]
  | false, none =>
    refine ⟨⟨s.entryCounter + 1, now, ot, tt, ol, tl, false, some false⟩,
      ?_, rfl, rfl, rfl, rfl, rfl⟩
    unfold addTranslation
    rw [hcur]
  | true, none =>
    refine ⟨⟨s.entryCounter + 1, now, ot, tt, ol, tl, true, some true⟩,
      ?_, rfl, rfl, rfl, rfl, rfl⟩
    unfold addTranslation
    rw [hcur]

/-- The entry produced by promoting the current interim to final. -/
def promotedEntry (iid : ℕ) (now : ℤ) (ot tt ol tl : String) : TranslationEntry :=
  { id := iid, timestamp := now, originalText := ot, translatedText := tt,
    originalLanguage := ol, translatedLanguage := tl, isFinal := true,
    isNewUtterance := some true }

/-- C3: when `addTranslation` is called with `isFinal = true` while
`currentInterimId = iid`, the entry at that same id is updated in place (new
texts, `isFinal = true`, `isNewUtterance = true`), `currentInterimId` is
cleared, no new id is allocated (the counter and the order list are
unchanged), so the log size is unchanged; when `iid` is actually present in
the map, the key set is also unchanged. -/
theorem addTranslation_promotion (s : ConvState) (now : ℤ) (ot tt ol tl : String)
    (iid : ℕ) (hcur : s.currentInterimId = some iid) :
    (addTranslation s now ot tt ol tl true).1 = some (promotedEntry iid now ot tt ol tl) ∧
      (addTranslation s now ot tt ol tl true).2.currentInterimId = none ∧
      (addTranslation s now ot tt ol tl true).2.entryCounter = s.entryCounter ∧
      (addTranslation s now ot tt ol tl true).2.entryOrder = s.entryOrder ∧
      getEntryCount (addTranslation s now ot tt ol tl true).2 = getEntryCount s ∧
      mapGet (addTranslation s now ot tt ol tl true).2.entries iid
        = some (promotedEntry iid now ot tt ol tl) ∧
      ((mapGet s.entries iid).isSome →
        (addTranslation s now ot tt ol tl true).2.entries.map Prod.fst
          = s.entries.map Prod.fst) := by
  unfold addTranslation
  rw [hcur]
  refine ⟨rfl, rfl, rfl, rfl, rfl, mapGet_mapSet_self _ _ _, ?_⟩
  intro hsome
  have hkey : iid ∈ s.entries.map Prod.fst := by
    obtain ⟨e₀, he₀⟩ := Option.isSome_iff_exists.mp hsome
    exact List.mem_map.mpr ⟨(iid, e₀), mapGet_mem _ _ _ he₀, rfl⟩
  exact keys_mapSet_mem _ _ _ hkey

/-- A manager state holding one unfinished interim entry (id 1). -/
def convInterimState : ConvState :=
  (addTranslation initConvState 0 "hola" "hello" "es-ES" "en-US" false).2

/-- Witness for C3: promoting the interim of `convInterimState` keeps the
order list, the counter and the log size unchanged, stores the final entry at
id 1, and clears `currentInterimId`. -/
theorem addTranslation_promotion_witness :
    (addTranslation convInterimState 5 "hola amigo" "hello friend" "es-ES" "en-US" true).2.currentInterimId
        = none ∧
      (addTranslation convInterimState 5 "hola amigo" "hello friend" "es-ES" "en-US" true).2.entryOrder
        = convInterimState.entryOrder ∧
      mapGet (addTranslation convInterimState 5 "hola amigo" "hello friend" "es-ES" "en-US" true).2.entries 1
        = some (promotedEntry 1 5 "hola amigo" "hello friend" "es-ES" "en-US") := by
  obtain ⟨-, h2, -, h4, -, h6, -⟩ :=
    addTranslation_promotion convInterimState 5 "hola amigo" "hello friend" "es-ES" "en-US" 1 rfl
  exact ⟨h2, h4, h6⟩

theorem isFinal_step_mono (s : ConvState) (hinv : ConvInv s) (op : ConvOp)
    (id : ℕ) (e e' : TranslationEntry) (h1 : mapGet s.entries id = some e)
    (h2 : mapGet (applyOp s op).entries id = some e') (hf : e.isFinal = true) :
    e'.isFinal = true := by
  cases op with
  | setLang f t =>
    have h2' : mapGet s.entries id = some e' := h2
    rw [h1] at h2'
    obtain rfl : e = e' := by injection h2'
    exact hf
  | clearOp =>
    have h2' : (none : Option TranslationEntry) = some e' := h2
    exact absurd h2' (by simp)
  | add now ot tt ol tl fin =>
    show e'.isFinal = true
    match hfin : fin, hcur : s.currentInterimId with
    | false, some iid =>
      have h2' : mapGet (mapSet s.entries iid
          { id := iid, timestamp := now, originalText := ot, translatedText := tt,
            originalLanguage := ol, translatedLanguage := tl, isFinal := false,
            isNewUtterance := none }) id = some e' := by
        have := h2
        unfold applyOp addTranslation at this
        rw [hcur] at this
        exact this
      by_cases hcase : id = iid
      · subst hcase
        obtain ⟨e₀, he₀, hef⟩ := hinv.interimOk id hcur
        rw [h1] at he₀
        have hv : e = e₀ := by injection he₀
        subst hv
        rw [hf] at hef
        exact absurd hef (by simp)
      · rw [mapGet_mapSet_ne _ _ _ _ hcase, h1] at h2'
        obtain rfl : e = e' := by injection h2'
        exact hf
    | true, some iid =>
      have h2' : mapGet (mapSet s.entries iid
          { id := iid, timestamp := now, originalText := ot, translatedText := tt,
            originalLanguage := ol, translatedLanguage := tl, isFinal := true,
            isNewUtterance := some true }) id = some e' := by
        have := h2
        unfold applyOp addTranslation at this
        rw [hcur] at this
        exact this
      by_cases hcase : id = iid
      · subst hcase
        rw [mapGet_mapSet_self] at h2'
        obtain rfl : _ = e' := by injection h2'
        rfl
      · rw [mapGet_mapSet_ne _ _ _ _ hcase, h1] at h2'
        obtain rfl : e = e' := by injection h2'
        exact hf
    | fin, none =>
      have hidle : id ≤ s.entryCounter := by
        have := hinv.keysBound (id, e) (mapGet_mem _ _ _ h1)
        exact this
      have hne : id ≠ s.entryCounter + 1 := by omega
      have h2' : mapGet (evictOldest
          { s with
            entryCounter := s.entryCounter + 1
            entries := mapSet s.entries (s.entryCounter + 1)
              { id := s.entryCounter + 1, timestamp := now, originalText := ot,
                translatedText := tt, originalLanguage := ol, translatedLanguage := tl,
                isFinal := fin, isNewUtterance := some fin }
            entryOrder := s.entryOrder ++ [s.entryCounter + 1]
            currentInterimId := if fin then none else some (s.entryCounter + 1) }).entries
          id = some e' := by
        have := h2
        unfold applyOp addTranslation at this
        rw [hcur] at this
        cases fin with
        | false => exact this
        | true => exact this
      unfold evictOldest at h2'
      by_cases hlen : (s.entryOrder ++ [s.entryCounter + 1]).length > maxEntries
      · rw [if_pos (by simpa using hlen)] at h2'
        cases h0 : s.entryOrder with
        | nil =>
          rw [h0] at hlen
          simp [maxEntries] at hlen
        | cons o r =>
          rw [h0] at h2'
          have hred : mapGet (mapDelete (mapSet s.entries (s.entryCounter + 1)
              { id := s.entryCounter + 1, timestamp := now, originalText := ot,
                translatedText := tt, originalLanguage := ol, translatedLanguage := tl,
                isFinal := fin, isNewUtterance := some fin }) o) id = some e' := h2'
          by_cases hco : id = o
          · subst hco
            rw [mapGet_mapDelete_self] at hred
            · exact absurd hred (by simp)
            · rw [keys_mapSet_not_mem]
              · exact List.Nodup.append hinv.keysNodup (List.nodup_singleton _)
                  (by
                    intro a ha hb
                    simp only [List.mem_singleton] at hb
                    subst hb
                    obtain ⟨p, hp, hfst⟩ := List.mem_map.mp ha
                    have := hinv.keysBound p hp
                    omega)
              · intro hmem
                obtain ⟨p, hp, hfst⟩ := List.mem_map.mp hmem
                have := hinv.keysBound p hp
                omega
          · rw [mapGet_mapDelete_ne _ _ _ hco, mapGet_mapSet_ne _ _ _ _ hne, h1] at hred
            obtain rfl : e = e' := by injection hred
            exact hf
      · rw [if_neg (by simpa using hlen)] at h2'
        have hred : mapGet (mapSet s.entries (s.entryCounter + 1)
            { id := s.entryCounter + 1, timestamp := now, originalText := ot,
              translatedText := tt, originalLanguage := ol, translatedLanguage := tl,
              isFinal := fin, isNewUtterance := some fin }) id = some e' := h2'
        rw [mapGet_mapSet_ne _ _ _ _ hne, h1] at hred
        obtain rfl : e = e' := by injection hred
        exact hf

/-- `id` stays in the log after each of the given operations. -/
def presentAlong (id : ℕ) : ConvState → List ConvOp → Prop
  | _, [] => True
  | s, op :: rest =>
    (mapGet (applyOp s op).entries id).isSome ∧ presentAlong id (applyOp s op) rest

theorem isFinal_mono_along (id : ℕ) :
    ∀ (ops : List ConvOp) (s : ConvState), ConvInv s →
      ∀ e : TranslationEntry, mapGet s.entries id = some e → e.isFinal = true →
        presentAlong id s ops →
        ∃ e', mapGet (runOps s ops).entries id = some e' ∧ e'.isFinal = true
  | [], s, _, e, h1, hf, _ => ⟨e, h1, hf⟩
  | op :: rest, s, hinv, e, h1, hf, hpres => by
    obtain ⟨hsome, hrest⟩ := hpres
    obtain ⟨e₁, he₁⟩ := Option.isSome_iff_exists.mp hsome
    have hf₁ : e₁.isFinal = true := isFinal_step_mono s hinv op id e e₁ h1 he₁ hf
    exact isFinal_mono_along id rest (applyOp s op) (convInv_applyOp s op hinv)
      e₁ he₁ hf₁ hrest

/-- C4: `isFinal` is monotone per entry id.  (a) Along any single operation on
a reachable manager state, an entry that is final stays final if it is still
in the log.  (b) Along any further operation sequence during which the id
remains present, a final entry stays final — so `isFinal` goes
`false → true` at most once and never back while the entry remains in the
log. -/
theorem conversationEntry_isFinal_monotone :
    (∀ (ops : List ConvOp) (op : ConvOp) (id : ℕ) (e e' : TranslationEntry),
        mapGet (runOps initConvState ops).entries id = some e →
        mapGet (applyOp (runOps initConvState ops) op).entries id = some e' →
        e.isFinal = true → e'.isFinal = true) ∧
      (∀ (ops₁ ops₂ : List ConvOp) (id : ℕ) (e : TranslationEntry),
        mapGet (runOps initConvState ops₁).entries id = some e →
        e.isFinal = true →
        presentAlong id (runOps initConvState ops₁) ops₂ →
        ∃ e', mapGet (runOps initConvState (ops₁ ++ ops₂)).entries id = some e' ∧
          e'.isFinal = true) := by
  constructor
  · intro ops op id e e' h1 h2 hf
    exact isFinal_step_mono (runOps initConvState ops) (convInv_runOps ops) op id e e' h1 h2 hf
  · intro ops₁ ops₂ id e h1 hf hpres
    have hrun : runOps initConvState (ops₁ ++ ops₂)
        = runOps (runOps initConvState ops₁) ops₂ := List.foldl_append _ _ _ _
    rw [hrun]
    exact isFinal_mono_along id ops₂ (runOps initConvState ops₁)
      (convInv_runOps ops₁) e h1 hf hpres

theorem keys_nodup_mapSet {β : Type} (m : List (ℕ × β)) (k : ℕ) (v : β)
    (h : (m.map Prod.fst).Nodup) : ((mapSet m k v).map Prod.fst).Nodup := by
  by_cases hk : k ∈ m.map Prod.fst
  · rw [keys_mapSet_mem _ _ _ hk]
    exact h
  · rw [keys_mapSet_not_mem _ _ _ hk]
    exact List.Nodup.append h (List.nodup_singleton _) (by simpa using hk)

theorem evictOldest_full (s1 : ConvState) (o : ℕ) (r : List ℕ)
    (h : s1.entryOrder = o :: r) (hlen : s1.entryOrder.length = maxEntries + 1) :
    evictOldest s1 = { s1 with entryOrder := r, entries := mapDelete s1.entries o } := by
  unfold evictOldest
  rw [if_pos (by rw [hlen]; omega)]
  rw [h]

theorem createEvict_spec (s : ConvState) (e : TranslationEntry) (ci : Option ℕ)
    (o : ℕ) (r : List ℕ) (h0 : s.entryOrder = o :: r)
    (hnd : (s.entries.map Prod.fst).Nodup)
    (hlen : s.entryOrder.length = maxEntries) :
    (evictOldest
        { s with
          entryCounter := s.entryCounter + 1
          entries := mapSet s.entries (s.entryCounter + 1) e
          entryOrder := s.entryOrder ++ [s.entryCounter + 1]
          currentInterimId := ci }).entryOrder = r ++ [s.entryCounter + 1] ∧
      mapGet (evictOldest
        { s with
          entryCounter := s.entryCounter + 1
          entries := mapSet s.entries (s.entryCounter + 1) e
          entryOrder := s.entryOrder ++ [s.entryCounter + 1]
          currentInterimId := ci }).entries o = none ∧
      (evictOldest
        { s with
          entryCounter := s.entryCounter + 1
          entries := mapSet s.entries (s.entryCounter + 1) e
          entryOrder := s.entryOrder ++ [s.entryCounter + 1]
          currentInterimId := ci }).entryOrder.length = maxEntries := by
  have hcons : s.entryOrder ++ [s.entryCounter + 1]
      = o :: (r ++ [s.entryCounter + 1]) := by rw [h0]; rfl
  have hfull := evictOldest_full
    { s with
      entryCounter := s.entryCounter + 1
      entries := mapSet s.entries (s.entryCounter + 1) e
      entryOrder := s.entryOrder ++ [s.entryCounter + 1]
      currentInterimId := ci } o (r ++ [s.entryCounter + 1])
    (by simpa using hcons) (by simp [hlen])
  rw [hfull]
  refine ⟨rfl, ?_, ?_⟩
  · exact mapGet_mapDelete_self _ _ (keys_nodup_mapSet _ _ _ hnd)
  · have hr : r.length + 1 = maxEntries := by
      rw [h0] at hlen
      simpa using hlen
    simpa using hr

/-- C5: (a) after every operation sequence the log holds at most 500 entries;
(b) every id in the order list maps to an entry in the map; (c) when a create
happens with the log at capacity, the oldest entry by insertion order is
evicted: its id is shifted off the order list and deleted from the map, the
new id is appended, and the log stays at exactly 500 entries. -/
theorem conversationLog_bounded :
    (∀ ops : List ConvOp, getEntryCount (runOps initConvState ops) ≤ maxEntries) ∧
      (∀ (ops : List ConvOp) (id : ℕ), id ∈ (runOps initConvState ops).entryOrder →
        (mapGet (runOps initConvState ops).entries id).isSome) ∧
      (∀ (s : ConvState) (now : ℤ) (ot tt ol tl : String) (fin : Bool),
        (s.entries.map Prod.fst).Nodup →
        s.currentInterimId = none →
        s.entryOrder.length = maxEntries →
        ∃ oldest rest, s.entryOrder = oldest :: rest ∧
          (addTranslation s now ot tt ol tl fin).2.entryOrder
            = rest ++ [s.entryCounter + 1] ∧
          mapGet (addTranslation s now ot tt ol tl fin).2.entries oldest = none ∧
          (addTranslation s now ot tt ol tl fin).2.entryOrder.length = maxEntries) := by
  refine ⟨?_, ?_, ?_⟩
  · intro ops
    exact (convInv_runOps ops).sizeBound
  · intro ops id hid
    exact (convInv_runOps ops).orderInMap id hid
  · intro s now ot tt ol tl fin hnd hcur hlen
    cases h0 : s.entryOrder with
    | nil =>
      rw [h0] at hlen
      simp [maxEntries] at hlen
    | cons o r =>
      refine ⟨o, r, rfl, ?_⟩
      cases fin with
      | false =>
        have hred : (addTranslation s now ot tt ol tl false).2
            = evictOldest
              { s with
                entryCounter := s.entryCounter + 1
                entries := mapSet s.entries (s.entryCounter + 1)
                  ⟨s.entryCounter + 1, now, ot, tt, ol, tl, false, some false⟩
                entryOrder := s.entryOrder ++ [s.entryCounter + 1]
                currentInterimId := some (s.entryCounter + 1) } := by
          unfold addTranslation
          rw [hcur]
          rfl
        rw [hred]
        exact createEvict_spec s _ _ o r h0 hnd hlen
      | true =>
        have hred : (addTranslation s now ot tt ol tl true).2
            = evictOldest
              { s with
                entryCounter := s.entryCounter + 1
                entries := mapSet s.entries (s.entryCounter + 1)
                  ⟨s.entryCounter + 1, now, ot, tt, ol, tl, true, some true⟩
                entryOrder := s.entryOrder ++ [s.entryCounter + 1]
                currentInterimId := none } := by
          unfold addTranslation
          rw [hcur]
          rfl
        rw [hred]
        exact createEvict_spec s _ _ o r h0 hnd hlen

/-- A placeholder final entry used to build a full log for the C5 witness. -/
def dummyEntry (i : ℕ) : TranslationEntry :=
  ⟨i, 0, "", "", "", "", true, some true⟩

/-- A manager state whose log is at capacity: ids 1..500 in insertion order. -/
def bigLogState : ConvState :=
  { entries := (List.range' 1 maxEntries).map (fun i => (i, dummyEntry i))
    entryOrder := List.range' 1 maxEntries
    currentInterimId := none
    entryCounter := maxEntries
    languagePair := { from_ := "Unknown", to_ := "Unknown" } }

/-- Witness for C5: creating a new entry in the full `bigLogState` evicts the
oldest id and keeps the log at exactly 500 entries. -/
theorem conversationLog_bounded_witness :
    (addTranslation bigLogState 0 "x" "y" "es-ES" "en-US" true).2.entryOrder.length
      = maxEntries := by
  obtain ⟨o, r, -, -, -, h4⟩ :=
    conversationLog_bounded.2.2 bigLogState 0 "x" "y" "es-ES" "en-US" true
      (by
        show ((((List.range' 1 maxEntries).map (fun i => (i, dummyEntry i)))).map
          Prod.fst).Nodup
        rw [List.map_map]
        have hcomp : (Prod.fst ∘ fun i => ((i, dummyEntry i) : ℕ × TranslationEntry))
            = fun i => i := rfl
        rw [hcomp]
        simpa using List.nodup_range' 1 maxEntries)
      rfl
      (by
        show (List.range' 1 maxEntries).length = maxEntries
        simp)
  exact h4

/-- Witness for C4: a final entry created by one operation is still final
after a further interim-creating operation. -/
theorem conversationEntry_isFinal_monotone_witness :
    (⟨1, 0, "adios", "bye", "es-ES", "en-US", true, some true⟩
        : TranslationEntry).isFinal = true :=
  conversationEntry_isFinal_monotone.1 [.add 0 "adios" "bye" "es-ES" "en-US" true]
    (.add 1 "uno" "one" "es-ES" "en-US" false) 1
    ⟨1, 0, "adios", "bye", "es-ES", "en-US", true, some true⟩
    ⟨1, 0, "adios", "bye", "es-ES", "en-US", true, some true⟩
    (by decide) (by decide) rfl

/-! ## Glasses-display debouncer (`debounceAndShowTranscript`, src/src/index.ts:442-483)

The per-session `TranscriptDebouncer` holds `lastSentTime` and an optional
pending single-shot timer.  A pending timer is modelled by its fire time
(schedule time + 400 ms, the full `debounceDelay` passed to `setTimeout`) and
the transcript it would show.  The Node event loop is single-threaded: a
pending timer whose fire time lies strictly before the next call fires first;
a timer still pending when a call runs is cleared by that call
(`clearTimeout`). -/

/-- Per-session debouncer state (`{ lastSentTime, timer }`). -/
structure TranscriptDebouncer where
  lastSentTime : ℤ
  timer : Option (ℤ × String)
  deriving Repr, DecidableEq

/-- `debounceDelay = 400` ms. -/
def debounceDelay : ℤ := 400

/-- A freshly created debouncer: `{ lastSentTime: 0, timer: null }`. -/
def initDebouncer : TranscriptDebouncer := { lastSentTime := 0, timer := none }

/-- One invocation of `debounceAndShowTranscript` at time `now`: clear any
pending timer; finals show immediately; interims show immediately when
`now − lastSentTime ≥ debounceDelay` and otherwise schedule a timer for
`debounceDelay` ms from now (`setTimeout(…, debounceDelay)`).  Returns the new
state and the frames shown (time, transcript, isFinal). -/
def debounceCall (d : TranscriptDebouncer) (now : ℤ) (transcript : String)
    (isFinal : Bool) : TranscriptDebouncer × List (ℤ × String × Bool) :=
  if isFinal then
    ({ lastSentTime := now, timer := none }, [(now, transcript, true)])
  else if now - d.lastSentTime ≥ debounceDelay then
    ({ lastSentTime := now, timer := none }, [(now, transcript, false)])
  else
    ({ d with timer := some (now + debounceDelay, transcript) }, [])

/-- The `setTimeout` callback: show the scheduled transcript and set
`lastSentTime := Date.now()` (the fire time). -/
def fireTimer (d : TranscriptDebouncer) : TranscriptDebouncer × List (ℤ × String × Bool) :=
  match d.timer with
  | some (ft, tr) => ({ lastSentTime := ft, timer := none }, [(ft, tr, false)])
  | none => (d, [])

/-- Run a time-ordered list of `debounceAndShowTranscript` calls: before each
call, a pending timer due strictly before the call fires; after the last
call, a still-pending timer eventually fires.  Returns all frames shown. -/
def runDebounce : TranscriptDebouncer → List (ℤ × String × Bool) → List (ℤ × String × Bool)
  | d, [] => (fireTimer d).2
  | d, (t, tr, fin) :: rest =>
    let fired :=
      match d.timer with
      | some (ft, _) => if ft < t then fireTimer d else (d, [])
      | none => (d, [])
    let called := debounceCall fired.1 t tr fin
    fired.2 ++ called.2 ++ runDebounce called.1 rest

/-- C6 counterexample: with interims at t = 1000, 1100, 1200, 1300, 1500 ms
(t = 0, 100, 200, 300, 500 relative to the first), the code emits frames at
t = 1000 and t = 1500 only — there is no coalesced frame at t ≈ 1400: each
interim inside the window schedules its timer a full 400 ms ahead (the one
arriving at 1100 schedules for 1500, not `lastSentTime + 400 = 1400`), each
later interim replaces it, and the final pending timer (for 1700) is
cancelled by the arrival at 1500, which emits immediately. -/
theorem debounce_counterexample :
    (runDebounce initDebouncer
        [(1000, "a", false), (1100, "b", false), (1200, "c", false),
          (1300, "d", false), (1500, "e", false)]).map (fun ev => ev.1)
        = [1000, 1500] ∧
      (debounceCall { lastSentTime := 1000, timer := none } 1100 "b" false).1.timer
        = some (1500, "b") ∧
      ¬ ((1500 : ℤ) = 1000 + 400) := by
  refine ⟨by decide, by decide, by decide⟩

/-- C6 (amended): an interim arriving at `now` with
`now − lastSentTime < 400 ms` cancels any pending timer and schedules a
single-shot timer for the full 400 ms window from its own arrival (firing at
`now + 400`), coalescing to the latest interim; an interim outside the window
is shown immediately; finals are always shown immediately and cancel pending
timers.  Consequently, for interims at t = 0, 100, 200, 300, 500 ms the
glasses receive frames at t = 0 and t = 500 only. -/
theorem debounce_coalesce (d : TranscriptDebouncer) (now : ℤ) (tr : String) :
    (now - d.lastSentTime < debounceDelay →
        debounceCall d now tr false
          = ({ d with timer := some (now + debounceDelay, tr) }, [])) ∧
      (debounceDelay ≤ now - d.lastSentTime →
        debounceCall d now tr false
          = ({ lastSentTime := now, timer := none }, [(now, tr, false)])) ∧
      debounceCall d now tr true
        = ({ lastSentTime := now, timer := none }, [(now, tr, true)]) ∧
      runDebounce initDebouncer
          [(1000, "a", false), (1100, "b", false), (1200, "c", false),
            (1300, "d", false), (1500, "e", false)]
        = [(1000, "a", false), (1500, "e", false)] := by
  refine ⟨?_, ?_, rfl, by decide⟩
  · intro h
    unfold debounceCall
    rw [if_neg (by simp), if_neg (by omega)]
  · intro h
    unfold debounceCall
    rw [if_neg (by simp), if_pos (by omega)]

/-- Witness for C6 (amended): after the frame at t = 1000 was sent, the
interim at t = 1100 schedules its timer for t = 1500 and shows nothing. -/
theorem debounce_coalesce_witness :
    debounceCall { lastSentTime := 1000, timer := none } 1100 "b" false
      = ({ lastSentTime := 1000, timer := some (1500, "b") }, []) :=
  (debounce_coalesce { lastSentTime := 1000, timer := none } 1100 "b").1 (by decide)

/-! ## SSE subscription (`translationEvents`, src/src/api/translations.route.ts:108-124) -/

/-- An event written on a `/translation-events` connection. -/
inductive SSEvent where
  | connected
  | translation (e : TranslationEntry)
  deriving Repr, DecidableEq

/-- The writes the handler performs when a subscriber connects: the synthetic
`connected` event, then every current Conversation Log entry as a
`translation` event, in `getAllEntries` order. -/
def sseConnectionWrites (m : ConvState) : List SSEvent :=
  SSEvent.connected :: (getAllEntries m).map SSEvent.translation

/-- The stream a subscriber observes: the handler runs synchronously (no
`await` between `addSSEClient` and the replay loop), so the connection-time
writes all precede whatever live broadcasts come later. -/
def sseStream (m : ConvState) (live : List TranslationEntry) : List SSEvent :=
  sseConnectionWrites m ++ live.map SSEvent.translation

theorem getAllEntries_ids (m : ConvState) (hinv : ConvInv m) :
    (getAllEntries m).map TranslationEntry.id = m.entryOrder := by
  unfold getAllEntries
  have h : ∀ l : List ℕ, (∀ id ∈ l, id ∈ m.entryOrder) →
      (l.filterMap (fun id => mapGet m.entries id)).map TranslationEntry.id = l := by
    intro l
    induction l with
    | nil => intro _; rfl
    | cons id rest ih =>
      intro hsub
      have hid : id ∈ m.entryOrder := hsub id (List.mem_cons_self _ _)
      obtain ⟨e, he⟩ := Option.isSome_iff_exists.mp (hinv.orderInMap id hid)
      have heid : e.id = id := hinv.keysId (id, e) (mapGet_mem _ _ _ he)
      simp only [List.filterMap_cons, he, List.map_cons, heid]
      rw [ih (fun i hi => hsub i (List.mem_cons_of_mem _ hi))]
  exact h m.entryOrder (fun _ hi => hi)

/-- C7: on every new subscriber connection, the stream starts with the
synthetic `connected` event, followed — before any live broadcast — by
exactly the entries the Conversation Log contains at subscription time, as
`translation` events in insertion order (their ids are precisely
`entryOrder`); everything after that replay segment comes from live
broadcasts only. -/
theorem sse_replay_completeness (ops : List ConvOp) (live : List TranslationEntry) :
    (sseStream (runOps initConvState ops) live).head? = some SSEvent.connected ∧
      (sseStream (runOps initConvState ops) live).take
          (1 + (getAllEntries (runOps initConvState ops)).length)
        = SSEvent.connected
            :: (getAllEntries (runOps initConvState ops)).map SSEvent.translation ∧
      (getAllEntries (runOps initConvState ops)).map TranslationEntry.id
        = (runOps initConvState ops).entryOrder ∧
      ∀ ev ∈ (sseStream (runOps initConvState ops) live).drop
          (1 + (getAllEntries (runOps initConvState ops)).length),
        ∃ e ∈ live, ev = SSEvent.translation e := by
  refine ⟨rfl, ?_, getAllEntries_ids _ (convInv_runOps ops), ?_⟩
  · have hlen : (sseConnectionWrites (runOps initConvState ops)).length
        = 1 + (getAllEntries (runOps initConvState ops)).length := by
      simp [sseConnectionWrites, Nat.add_comm]
    unfold sseStream
    rw [← hlen, List.take_left]
    rfl
  · intro ev hev
    have hlen : (sseConnectionWrites (runOps initConvState ops)).length
        = 1 + (getAllEntries (runOps initConvState ops)).length := by
      simp [sseConnectionWrites, Nat.add_comm]
    unfold sseStream at hev
    rw [← hlen, List.drop_left] at hev
    obtain ⟨e, he, rfl⟩ := List.mem_map.mp hev
    exact ⟨e, he, rfl⟩

end LiveTranslation
